import Mathlib

/-!
# Verification of the constrained-decoding text pipeline

Shallow embedding of `src/constrained_decoding/server/__init__.py`:

* `remapIndices` / `remap_constraint_indices` — the constraint index remapper
  (lines 20–67 of the source);
* `convert_token_annotations_to_spans` — the span annotation converter
  (lines 70–102);
* `mkBpeCodesList` / `pyDictGet` — the merge-table constructor of
  `BPE.__init__` (lines 173–179);
* `mergePass`, `bpeLoop`, `encode`, `encodeWithCache` — the subword (BPE)
  encoder (lines 105–168);
* `BPE.segment` — sentence-level segmentation (lines 181–195);
* `DataProcessor.tokenize` — the line-protocol tokenize logic (lines 217–240),
  with the external process's stdout modelled as a list of lines.

Strings are modelled by Lean `String`/`List Char`; Python exceptions raised by
the source (`IndexError`, `AssertionError`) are modelled by `Except` with
descriptively named error constructors matching the specification's error
vocabulary.  Code paths where the source raises nothing are modelled as total
functions.
-/

namespace ConstrainedDecoding

/-- Errors raised by `remap_constraint_indices`.  `alignmentOverrun` models the
`IndexError` raised when the cursor into the tokenized sequence runs past its
end (both the explicit `raise IndexError` at line 48 and the implicit
`IndexError` from evaluating `tokenized_sequence[tokenized_idx]` out of
bounds); `orphanSpanEnd` models the `AssertionError` of
`assert true_start is not None` (lines 38 and 56). -/
inductive RemapError where
  | alignmentOverrun : RemapError
  | orphanSpanEnd : RemapError
deriving DecidableEq, Repr

/-- Keys of `constraint_idx_starts = {start: end for start, end in constraint_indices}`
(line 27).  Only key membership is ever consulted by the source. -/
def spanStarts (spans : List (Nat × Nat)) : List Nat := spans.map Prod.fst

/-- Keys of `constraint_idx_ends = {end: start for start, end in constraint_indices}`
(line 28).  Only key membership is ever consulted by the source. -/
def spanEnds (spans : List (Nat × Nat)) : List Nat := spans.map Prod.snd

/-- The span-registration check performed at a cursor position: lines 35–41
(and identically lines 53–59).  The start test comes first; the end test runs
only in the `elif` branch.  `ti` is `tokenized_idx`, `off` is
`current_offset`, `ts` is `true_start`, `acc` is `remapped_indices`. -/
def spanCheck (starts ends : List Nat) (ti off : Nat) (ts : Option Nat)
    (acc : List (Nat × Nat)) : Except RemapError (Option Nat × List (Nat × Nat)) :=
  if ti ∈ starts then .ok (some (ti - off), acc)
  else if ti ∈ ends then
    match ts with
    | none => .error .orphanSpanEnd
    | some s => .ok (none, acc ++ [(s, ti - off)])
  else .ok (ts, acc)

/-- The inner `while output_char != tokenized_sequence[tokenized_idx]` loop
(lines 44–59).  `rem` is the suffix `tokenized[tokenized_idx:]`; evaluating the
loop condition with the cursor at or past the end raises the overrun error.
On a mismatch the cursor and offset are incremented and the span registration
is re-checked at the new position before the condition is re-evaluated. -/
def skipLoop (starts ends : List Nat) (c : Char) :
    List Char → Nat → Nat → Option Nat → List (Nat × Nat) →
    Except RemapError (Nat × Nat × Option Nat × List (Nat × Nat))
  | [], _, _, _, _ => .error .alignmentOverrun
  | t :: rem, ti, off, ts, acc =>
    if t = c then .ok (ti, off, ts, acc)
    else
      match spanCheck starts ends (ti + 1) (off + 1) ts acc with
      | .error e => .error e
      | .ok (ts', acc') => skipLoop starts ends c rem (ti + 1) (off + 1) ts' acc'

/-- The outer `for true_idx, output_char in enumerate(detokenized_sequence)`
loop (lines 34–61) plus the final flush of a pending span (lines 63–65). -/
def remapLoop (tok : List Char) (starts ends : List Nat) :
    List Char → Nat → Nat → Option Nat → List (Nat × Nat) →
    Except RemapError (List (Nat × Nat))
  | [], ti, off, ts, acc =>
    match ts with
    | some s => .ok (acc ++ [(s, ti - off)])
    | none => .ok acc
  | c :: det, ti, off, ts, acc =>
    match spanCheck starts ends ti off ts acc with
    | .error e => .error e
    | .ok (ts1, acc1) =>
      match skipLoop starts ends c (tok.drop ti) ti off ts1 acc1 with
      | .error e => .error e
      | .ok (ti2, off2, ts2, acc2) =>
        remapLoop tok starts ends det (ti2 + 1) off2 ts2 acc2

/-- Character-list core of `remap_constraint_indices` (lines 20–67). -/
def remapIndices (tok det : List Char) (spans : List (Nat × Nat)) :
    Except RemapError (List (Nat × Nat)) :=
  remapLoop tok (spanStarts spans) (spanEnds spans) det 0 0 none []

/-- The function `remap_constraint_indices(tokenized_sequence,
detokenized_sequence, constraint_indices)` of the source (lines 20–67). -/
def remap_constraint_indices (tokenized detokenized : String)
    (spans : List (Nat × Nat)) : Except RemapError (List (Nat × Nat)) :=
  remapIndices tokenized.data detokenized.data spans

instance : DecidableEq (Except RemapError (List (Nat × Nat))) := fun a b =>
  match a, b with
  | .ok x, .ok y =>
    if h : x = y then .isTrue (by rw [h]) else .isFalse (by simp [h])
  | .error x, .error y =>
    if h : x = y then .isTrue (by rw [h]) else .isFalse (by simp [h])
  | .ok _, .error _ => .isFalse (by simp)
  | .error _, .ok _ => .isFalse (by simp)

/-- Errors of `convert_token_annotations_to_spans`: `lengthMismatch` models the
`AssertionError` of line 71; `indexError` models the `IndexError` that
`annotation[0]` would raise on an empty annotation. -/
inductive ConvertError where
  | lengthMismatch : ConvertError
  | indexError : ConvertError
deriving DecidableEq, Repr

/-- The `for token, annotation in zip(token_sequence, constraint_annotations)`
loop of `convert_token_annotations_to_spans` (lines 78–99).  An annotation is
an optional non-empty sequence; `annotation[0]` is its head.  `cid` is
`constraint_id`, `cstart` is `constraint_start_idx`, `acc` is
`span_annotations`, `out` is `output_sequence`.  The `cstart.getD 0` in the
closing branch is unreachable with `cstart = none`, because the source sets
`constraint_start_idx` whenever it sets `constraint_id`. -/
def convLoop {γ : Type} [DecidableEq γ] :
    List (String × Option (List γ)) → Option γ → Option Nat →
    List (Nat × Nat) → String → Except ConvertError (List (Nat × Nat) × String)
  | [], _, _, acc, out => .ok (acc, out)
  | (token, ann) :: rest, cid, cstart, acc, out =>
    match ann with
    | some l =>
      match l with
      | [] => .error .indexError
      | a :: _ =>
        if some a ≠ cid then
          let cs := out.length + (if out.length > 0 then 1 else 0)
          convLoop rest (some a) (some cs) acc
            (if out.length = 0 then token else out ++ " " ++ token)
        else
          convLoop rest cid cstart acc
            (if out.length = 0 then token else out ++ " " ++ token)
    | none =>
      match cid with
      | some _ =>
        convLoop rest none none (acc ++ [(cstart.getD 0, out.length)])
          (if out.length = 0 then token else out ++ " " ++ token)
      | none =>
        convLoop rest none cstart acc
          (if out.length = 0 then token else out ++ " " ++ token)

/-- The function `convert_token_annotations_to_spans(token_sequence,
constraint_annotations)` of the source (lines 70–102).  The source's return
order `(span_annotations, output_sequence)` is kept. -/
def convert_token_annotations_to_spans {γ : Type} [DecidableEq γ]
    (tokens : List String) (anns : List (Option (List γ))) :
    Except ConvertError (List (Nat × Nat) × String) :=
  if tokens.length = anns.length then
    convLoop (tokens.zip anns) none none [] ""
  else .error .lengthMismatch

/-- Accumulating scanner for Python `str.split()`: `acc` holds the current
word's characters in reverse. -/
def splitWsAux : List Char → List Char → List String
  | [], acc => if acc.isEmpty then [] else [String.mk acc.reverse]
  | c :: rest, acc =>
    if c.isWhitespace then
      if acc.isEmpty then splitWsAux rest []
      else String.mk acc.reverse :: splitWsAux rest []
    else splitWsAux rest (c :: acc)

/-- Python `str.split()` with no argument: split on whitespace runs,
discarding empty fields. -/
def splitWs (s : String) : List String :=
  splitWsAux s.data []

/-- Python `str.rstrip()` on a character list: drop trailing whitespace. -/
def rstripChars (l : List Char) : List Char :=
  (l.reverse.dropWhile Char.isWhitespace).reverse

/-- Python `str.strip()` on a character list: drop leading and trailing
whitespace. -/
def stripChars (l : List Char) : List Char :=
  rstripChars (l.dropWhile Char.isWhitespace)

/-- Python `str.endswith(suffix)`. -/
def strEndsWith (s suffix : String) : Bool :=
  suffix.data.isSuffixOf s.data

/-- Scanner for Python `str.replace(pattern, '')` with a non-empty pattern:
at each position, a match of the pattern is removed and scanning resumes
after it; otherwise the character is kept.  The fuel is the remaining list
length plus one, which dominates the number of steps. -/
def removeAllAux (pat : List Char) : Nat → List Char → List Char
  | 0, l => l
  | _ + 1, [] => []
  | fuel + 1, c :: rest =>
    if pat.isPrefixOf (c :: rest) ∧ ¬pat.isEmpty then
      removeAllAux pat fuel ((c :: rest).drop pat.length)
    else c :: removeAllAux pat fuel rest

/-- Python `s.replace(pattern, '')` for a non-empty pattern: remove all
non-overlapping, left-to-right occurrences of `pattern` from `s`. -/
def removeAll (s pattern : String) : String :=
  String.mk (removeAllAux pattern.data (s.data.length + 1) s.data)

/-- Lookup in a Python `dict` built by inserting the bindings of `l` in
order: later insertions of the same key overwrite earlier ones, so the
binding that wins is the last one in `l`. -/
def pyDictGet {K V : Type} [DecidableEq K] (l : List (K × V)) (k : K) :
    Option V :=
  (l.reverse.find? (fun p => p.1 = k)).map Prod.snd

/-- The insertion list of the `BPE.__init__` merge table (lines 173–178):
`[tuple(item.split()) for item in codes]` indexed by `enumerate`, reversed, and
each `(i, code)` flipped to `(code, i)`.  Feeding this list to `pyDictGet`
reproduces `dict([(code, i) for (i, code) in reversed(list(enumerate(...)))])`:
because the enumeration is reversed before insertion, the first occurrence of a
duplicate code is inserted last and therefore wins. -/
def mkBpeCodesList (codes : List String) : List (List String × Nat) :=
  (((codes.map splitWs).enum).map (fun p => (p.2, p.1))).reverse

/-- The rank (priority) of a symbol pair in the merge table:
`self.bpe_codes.get(pair, ...)` where a missing pair has no rank
(the source's `float('inf')`). -/
def bpeRank (table : List (List String × Nat)) (first second : String) :
    Option Nat :=
  pyDictGet table [first, second]

/-- Helper of `get_pairs` (lines 105–115): the adjacent symbol pairs of
`prev :: rest`, in left-to-right order. -/
def pairsAux (prev : String) : List String → List (String × String)
  | [] => []
  | y :: rest => (prev, y) :: pairsAux y rest

/-- The function `get_pairs(word)` (lines 105–115).  The source builds a
`set`; only membership and a minimum over it are ever used, so the pairs are
kept as a list (duplicates do not change the minimum).  The source indexes
`word[0]`, so the empty case is unreachable in the source. -/
def getPairsL : List String → List (String × String)
  | [] => []
  | x :: rest => pairsAux x rest

/-- Comparison of ranks where a missing rank is `float('inf')`. -/
def rankLt : Option Nat → Option Nat → Bool
  | some a, some b => a < b
  | some _, none => true
  | none, _ => false

/-- The selection `min(pairs, key = lambda pair: bpe_codes.get(pair, float('inf')))`
(line 133).  `min` keeps the earliest minimum in iteration order; among pairs
present in the table the minimum rank is unique (each table entry has a
distinct index), and when no pair is in the table the chosen pair is
immediately discarded by the `if bigram not in bpe_codes: break` test, so
iterating the pair list instead of Python's arbitrary set order is
behaviourally equivalent.  `none` is returned only for an empty pair list,
where the source's `min` would raise `ValueError` (unreachable for non-empty
input words). -/
def minByRank (table : List (List String × Nat)) :
    List (String × String) → Option (String × String)
  | [] => none
  | p :: rest =>
    some (rest.foldl
      (fun best q =>
        if rankLt (bpeRank table q.1 q.2) (bpeRank table best.1 best.2) then q
        else best) p)

/-- One merge pass of `encode` (lines 137–153): scan the word left to right;
each adjacent occurrence of `(f, s)` is replaced by the single symbol `f ++ s`
(consuming both), every other symbol is copied through.  The source expresses
the same scan with `word.index(first, i)` jumps; skipping to the next
occurrence of `f` and copying the skipped symbols is exactly the `else` branch
here. -/
def mergePassAux (f s x : String) : List String → List String
  | [] => [x]
  | y :: rest =>
    if x = f ∧ y = s then
      (f ++ s) :: (match rest with
        | [] => []
        | z :: rest' => mergePassAux f s z rest')
    else x :: mergePassAux f s y rest

/-- One merge pass over a whole word: `mergePassAux` started at its head. -/
def mergePass (f s : String) : List String → List String
  | [] => []
  | x :: rest => mergePassAux f s x rest

/-- Greedy scan counting occurrences, with the carried current symbol `x`. -/
def countAdjPairAux (f s x : String) : List String → Nat
  | [] => 0
  | y :: rest =>
    if x = f ∧ y = s then
      1 + (match rest with
        | [] => 0
        | z :: rest' => countAdjPairAux f s z rest')
    else countAdjPairAux f s y rest

/-- The number of non-overlapping, left-to-right occurrences of the adjacent
pair `(f, s)`, counted by the same greedy scan as `mergePass`. -/
def countAdjPair (f s : String) : List String → Nat
  | [] => 0
  | x :: rest => countAdjPairAux f s x rest

/-- The `while True` merge loop of `encode` (lines 132–159).  The loop
terminates because every executed pass merges at least one occurrence and so
strictly shortens the word; the fuel `word.length + 1` therefore dominates the
number of iterations, and the fuel-exhausted branch is unreachable when called
by `encode`. -/
def bpeLoop (table : List (List String × Nat)) : Nat → List String → List String
  | 0, word => word
  | fuel + 1, word =>
    match minByRank table (getPairsL word) with
    | none => word
    | some (f, s) =>
      match bpeRank table f s with
      | none => word
      | some _ =>
        let w' := mergePass f s word
        if w'.length = 1 then w' else bpeLoop table fuel w'

/-- The end-of-word stripping of `encode` (lines 161–165): drop a final
`"</w>"` symbol, or remove the `"</w>"` occurrences from a longer final
symbol (`word[-1].replace('</w>','')`). -/
def stripEOW : List String → List String
  | w =>
    match w.getLast? with
    | none => w
    | some last =>
      if last = "</w>" then w.dropLast
      else if strEndsWith last "</w>" then w.dropLast ++ [removeAll last "</w>"]
      else w

/-- The function `encode(orig, bpe_codes, cache)` (lines 118–168).  The result
is the segmentation together with the updated cache (the source mutates the
dict passed as `cache`) and a flag recording whether the call returned from
the cache-hit branch of lines 126–127 (bypassing the whole merge algorithm).
A `cache=None` call corresponds to passing `[]` here: the source then creates
a fresh empty dict. -/
def encode (orig : String) (table : List (List String × Nat))
    (cache : List (String × List String)) :
    List String × List (String × List String) × Bool :=
  match (cache.find? (fun p => p.1 = orig)).map Prod.snd with
  | some r => (r, cache, true)
  | none =>
    let word := orig.data.map (fun c => String.singleton c) ++ ["</w>"]
    let r := stripEOW (bpeLoop table (word.length + 1) word)
    (r, (orig, r) :: cache, false)

/-- The state of a `BPE` object (lines 171–179): the merge table built by
`__init__`, the separator (default `'@@'`) and the optional ignore set.
No cache attribute exists on the object. -/
structure BPE where
  bpe_codes : List (List String × Nat)
  separator : String
  ignore : Option (List String)

/-- The constructor `BPE.__init__(codes, separator='@@', ignore=None)`
(lines 173–179).  It never raises: every line is split on whitespace and kept
as a tuple key of whatever arity the split produced. -/
def BPE.init (codes : List String) (separator : String)
    (ignore : Option (List String)) : BPE :=
  ⟨mkBpeCodesList codes, separator, ignore⟩

/-- The body of the `for word in sentence.split()` loop of `BPE.segment`
(lines 185–193), instrumented: the second state component records, for each
non-ignored word in order, whether the `encode` call for it returned from the
cache-hit branch.  The source calls `encode(word, self.bpe_codes)` with no
cache argument, which is `encode word b.bpe_codes []` here.  The `none` branch
of `getLast?` is unreachable (`encode` of a non-empty word is non-empty; the
source would raise `IndexError` on `new_word[-1]`). -/
def BPE.segStep (b : BPE) (st : List String × List Bool) (word : String) :
    List String × List Bool :=
  if (match b.ignore with | some ig => ig.contains word | none => false) then
    (st.1 ++ [word], st.2)
  else
    let r := encode word b.bpe_codes []
    match r.1.getLast? with
    | some last =>
      (st.1 ++ (r.1.dropLast.map (fun item => item ++ b.separator)) ++ [last],
       st.2 ++ [r.2.2])
    | none => (st.1, st.2 ++ [r.2.2])

/-- The loop of `BPE.segment` over the words of the sentence, folding
`BPE.segStep` and joining the collected output symbols with single spaces. -/
def BPE.segmentTrace (b : BPE) (sentence : String) : String × List Bool :=
  let res := (splitWs sentence).foldl b.segStep ([], [])
  (" ".intercalate res.1, res.2)

/-- The method `BPE.segment(sentence)` (lines 181–195): the output string of
the instrumented embedding. -/
def BPE.segment (b : BPE) (sentence : String) : String :=
  (b.segmentTrace sentence).1

/-- The `while segment == '\n': segment = self.tokenizer.stdout.readline()`
loop of `DataProcessor.tokenize` (lines 228–230).  The external process's
stdout is modelled as the list of lines it will produce before closing; at
end-of-stream `readline` returns the empty string, which is not `'\n'` and so
exits the loop. -/
def skipBlankLines : List String → String × List String
  | [] => ("", [])
  | l :: rest => if l = "\n" then skipBlankLines rest else (l, rest)

/-- The method `DataProcessor.tokenize(text)` (lines 217–240), with the
tokenizer subprocess's stdout modelled as the list `stdout` of lines.  After
the blank-skipping loop one more line is read and discarded (line 232); the
surviving line is right-stripped and split (through the BPE segmenter when
`use_subword` is set).  No code path raises: if the stream closes before a
non-blank line, `segment` is the empty string and the result is the empty
token list. -/
def DataProcessor.tokenize (use_subword : Bool) (bpe : BPE) (text : String)
    (stdout : List String) : List String :=
  if (stripChars text.data).length = 0 then []
  else
    let segment := (skipBlankLines stdout).1
    let utf_line := String.mk (rstripChars segment.data)
    if use_subword then splitWs (bpe.segment utf_line) else splitWs utf_line

end ConstrainedDecoding

namespace ConstrainedDecoding

/-- C1: for `remap(tokenized = "fo@@ o bar", detokenized = "foo bar",
spans = [[0,5]])`, the claim states the result is exactly `[[0,3]]`.  It is
not: the source produces `[[0,2]]`.  When the cursor skips the removed
characters `@@ ` (positions 2–4), it reaches the registered end offset 5 with
`current_offset = 3`, so the span closes at `5 - 3 = 2`. -/
theorem c1_counterexample :
    remap_constraint_indices "fo@@ o bar" "foo bar" [(0, 5)] = .ok [(0, 2)] ∧
      Except.ok [(0, 2)] ≠
        (Except.ok [(0, 3)] : Except RemapError (List (Nat × Nat))) := by
  exact ⟨rfl, by decide⟩

/-- C1 amended: the remapped text-space span `[[0,3]]` (covering `"foo"` in
`"foo bar"`) is produced for the token-space span `[[0,6]]` — the half-open
span covering `"fo@@ o"` — while the claim's input `[[0,5]]` (covering
`"fo@@ "`) produces `[[0,2]]` (covering `"fo"`). -/
theorem c1_amended :
    remap_constraint_indices "fo@@ o bar" "foo bar" [(0, 6)] = .ok [(0, 3)] ∧
      remap_constraint_indices "fo@@ o bar" "foo bar" [(0, 5)] = .ok [(0, 2)] :=
  ⟨rfl, rfl⟩

/-- C2: for `convert_token_annotations_to_spans(["foo","bar","baz"],
[None,"c1","c1"])` the source returns no spans at all, not `[[4,11]]`: a
constraint run that extends to the end of the token sequence is silently
dropped, because the loop closes a span only on a transition to a `None`
annotation and nothing closes the still-open span after the loop (contrast
`remap_constraint_indices`, which does flush its pending span at lines 63–65).
The output text is `"foo bar baz"` as claimed. -/
theorem c2_trailing_span_dropped :
    convert_token_annotations_to_spans ["foo", "bar", "baz"]
        [none, some "c1".data, some "c1".data] = .ok ([], "foo bar baz") :=
  rfl

/-- Each greedy-scan occurrence of the pair consumes two symbols and emits
one, so the merged length plus the occurrence count recovers the input
length `l.length + 1` (the `+ 1` being the carried current symbol `x`). -/
theorem mergePassAux_length_bounded (f s : String) :
    ∀ (n : Nat) (l : List String), l.length ≤ n → ∀ (x : String),
      (mergePassAux f s x l).length + countAdjPairAux f s x l = l.length + 1 := by
  intro n
  induction n with
  | zero =>
    intro l hl x
    match l with
    | [] => rfl
    | _ :: _ => simp at hl
  | succ n ih =>
    intro l hl x
    match l with
    | [] => rfl
    | y :: rest =>
      unfold mergePassAux countAdjPairAux
      by_cases h : x = f ∧ y = s
      · rw [if_pos h, if_pos h]
        match rest with
        | [] => rfl
        | z :: rest' =>
          have hlen : rest'.length ≤ n := by
            simp only [List.length_cons] at hl; omega
          have := ih rest' hlen z
          simp only [List.length_cons] at this ⊢
          omega
      · rw [if_neg h, if_neg h]
        have hlen : rest.length ≤ n := by
          simp only [List.length_cons] at hl; omega
        have := ih rest hlen y
        simp only [List.length_cons]
        omega

theorem mergePassAux_length (f s : String) (x : String) (l : List String) :
    (mergePassAux f s x l).length + countAdjPairAux f s x l = l.length + 1 :=
  mergePassAux_length_bounded f s l.length l (Nat.le_refl _) x

/-- The merge pass shortens the word by exactly the number of greedy
non-overlapping occurrences of the selected pair. -/
theorem mergePass_length (f s : String) (l : List String) :
    (mergePass f s l).length + countAdjPair f s l = l.length := by
  cases l with
  | nil => rfl
  | cons x rest =>
    simp only [mergePass, countAdjPair, List.length_cons]
    exact mergePassAux_length f s x rest

/-- C9: the merge pass of `encode` (lines 137–153) merges every
non-overlapping, left-to-right occurrence of the selected pair, not only the
first.  Part 1: over every word, the pass shortens the word by exactly the
greedy occurrence count of the pair (merging only the first occurrence would
shorten by at most one).  Part 2: a concrete pass over a word containing two
occurrences of `(a, b)` merges both.  Part 3: a full `encode` run on
`"abab"` with the single rule `a b` merges both occurrences in its one
iteration, producing `ab ab`. -/
theorem c9_merge_pass_all_occurrences :
    (∀ (f s : String) (w : List String),
      (mergePass f s w).length + countAdjPair f s w = w.length) ∧
    mergePass "a" "b" ["a", "b", "c", "a", "b"] = ["ab", "c", "ab"] ∧
    (encode "abab" (mkBpeCodesList ["a b"]) []).1 = ["ab", "ab"] :=
  ⟨mergePass_length, rfl, rfl⟩

/-- C5 counterexample: the merge-table constructor does not fail on a
declaration that splits into three fields.  `BPE.__init__(["a b c"])`
succeeds, storing the whole three-field tuple as an (inert) table key with
priority 0; no `MalformedRuleError` (or any other exception) exists in that
code path. -/
theorem c5_counterexample :
    (BPE.init ["a b c"] "@@" none).bpe_codes = [(["a", "b", "c"], 0)] :=
  rfl

/-- First index at which `k` occurs in the list, with indexing starting at
`n`: the characterization of a Python dict built from a reversed enumeration. -/
def firstIdxFrom {α : Type} [DecidableEq α] (n : Nat) (k : α) : List α → Option Nat
  | [] => none
  | x :: rest => if x = k then some n else firstIdxFrom (n + 1) k rest

theorem enumFrom_find_eq_firstIdxFrom {α : Type} [DecidableEq α]
    (k : α) (l : List α) :
    ∀ n, ((l.enumFrom n).find? (fun p => p.2 = k)).map Prod.fst =
      firstIdxFrom n k l := by
  induction l with
  | nil => intro n; rfl
  | cons x rest ih =>
    intro n
    by_cases h : x = k
    · rw [List.enumFrom, List.find?_cons_of_pos _ (by simpa using h),
        firstIdxFrom, if_pos h]
      rfl
    · rw [List.enumFrom, List.find?_cons_of_neg _ (by simpa using h),
        firstIdxFrom, if_neg h]
      exact ih (n + 1)

theorem find_swap_map {α β : Type} [DecidableEq α] (k : α) :
    ∀ (l : List (β × α)),
      ((l.map (fun p => (p.2, p.1))).find? (fun p => p.1 = k)).map Prod.snd =
        (l.find? (fun p => p.2 = k)).map Prod.fst := by
  intro l
  induction l with
  | nil => rfl
  | cons a rest ih =>
    by_cases h : a.2 = k
    · rw [List.map_cons, List.find?_cons_of_pos _ (by simpa using h),
        List.find?_cons_of_pos _ (by simpa using h)]
      rfl
    · rw [List.map_cons, List.find?_cons_of_neg _ (by simpa using h),
        List.find?_cons_of_neg _ (by simpa using h)]
      exact ih

theorem pyDictGet_mkBpeCodesList (codes : List String) (k : List String) :
    pyDictGet (mkBpeCodesList codes) k = firstIdxFrom 0 k (codes.map splitWs) := by
  unfold pyDictGet mkBpeCodesList
  rw [List.reverse_reverse, find_swap_map, List.enum]
  exact enumFrom_find_eq_firstIdxFrom k (codes.map splitWs) 0

theorem firstIdxFrom_spec {α : Type} [DecidableEq α] (k : α) (l : List α) :
    ∀ n m, firstIdxFrom n k l = some m →
      n ≤ m ∧ l.get? (m - n) = some k ∧ ∀ j, j < m - n → l.get? j ≠ some k := by
  induction l with
  | nil => intro n m h; simp [firstIdxFrom] at h
  | cons x rest ih =>
    intro n m h
    simp only [firstIdxFrom] at h
    by_cases hx : x = k
    · rw [if_pos hx] at h
      cases h
      refine ⟨Nat.le_refl _, ?_, ?_⟩
      · simp [hx]
      · intro j hj; omega
    · rw [if_neg hx] at h
      obtain ⟨h1, h2, h3⟩ := ih (n + 1) m h
      refine ⟨by omega, ?_, ?_⟩
      · have : m - n = (m - (n + 1)) + 1 := by omega
        rw [this]; simpa using h2
      · intro j hj
        match j with
        | 0 => simpa using hx
        | j' + 1 =>
          have : j' < m - (n + 1) := by omega
          simpa using h3 j' this

theorem firstIdxFrom_complete {α : Type} [DecidableEq α] (k : α) (l : List α) :
    ∀ n i, l.get? i = some k → ∃ m, firstIdxFrom n k l = some m ∧ m ≤ n + i := by
  induction l with
  | nil => intro n i h; simp at h
  | cons x rest ih =>
    intro n i h
    simp only [firstIdxFrom]
    by_cases hx : x = k
    · exact ⟨n, by rw [if_pos hx], by omega⟩
    · rw [if_neg hx]
      match i with
      | 0 => simp at h; exact absurd h hx
      | i' + 1 =>
        simp only [List.get?_cons_succ] at h
        obtain ⟨m, hm, hle⟩ := ih (n + 1) i' h
        exact ⟨m, hm, by omega⟩

/-- C8: when the same symbol pair occurs more than once among the parsed
merge-rule declarations, the table built by `BPE.__init__` (lines 173–178)
assigns it the priority of its earliest occurrence in source order, and all
later duplicates are ignored: for any occurrence of the key `k` at index `i`,
the table maps `k` to some index `j ≤ i` that is an occurrence of `k` and is
preceded by no occurrence of `k`. -/
theorem c8_first_occurrence_priority (codes : List String) (k : List String)
    (i : Nat) (hi : (codes.map splitWs).get? i = some k) :
    ∃ j, j ≤ i ∧ (codes.map splitWs).get? j = some k ∧
      pyDictGet (mkBpeCodesList codes) k = some j ∧
      ∀ j', j' < j → (codes.map splitWs).get? j' ≠ some k := by
  obtain ⟨m, hm, hle⟩ := firstIdxFrom_complete k (codes.map splitWs) 0 i hi
  obtain ⟨-, hget, hmin⟩ := firstIdxFrom_spec k (codes.map splitWs) 0 m hm
  refine ⟨m, by omega, by simpa using hget, ?_, ?_⟩
  · rw [pyDictGet_mkBpeCodesList]; exact hm
  · intro j' hj'; simpa using hmin j' (by omega)

/-- C5 amended: the merge-table constructor (lines 173–178) never fails —
no `MalformedRuleError` or any other exception exists in that code path.
Every declaration is split on whitespace and stored as a tuple key of
whatever arity the split produced, with a priority below the number of
declarations; a key of arity other than two is inert, as adjacent-pair
queries always use two-element keys. -/
theorem c5_amended (codes : List String) (k : List String) (i : Nat)
    (h : pyDictGet (mkBpeCodesList codes) k = some i) :
    k ∈ codes.map splitWs ∧ i < codes.length := by
  rw [pyDictGet_mkBpeCodesList] at h
  obtain ⟨-, hget, -⟩ := firstIdxFrom_spec k (codes.map splitWs) 0 i h
  simp only [Nat.sub_zero] at hget
  refine ⟨List.get?_mem hget, ?_⟩
  have := List.get?_eq_some.mp hget
  obtain ⟨hlt, -⟩ := this
  simpa using hlt

/-- Witness for C5 amended: the three-field declaration of the
counterexample is stored with priority 0 and is indeed a split of an input
line. -/
theorem c5_amended_witness :
    ["a", "b", "c"] ∈ ["a b c"].map splitWs ∧ (0 : Nat) < ["a b c"].length :=
  c5_amended ["a b c"] ["a", "b", "c"] 0 (by decide)

/-- The cache-miss flag of an `encode` call that starts from an empty cache:
the lookup of lines 126–127 cannot hit. -/
theorem encode_nil_cache_miss (orig : String) (table : List (List String × Nat)) :
    (encode orig table []).2.2 = false :=
  rfl

/-- One `BPE.segStep` either keeps the flag list (ignored word) or appends
the cache-miss flag `false` of an `encode` call on the empty cache. -/
theorem segStep_snd (b : BPE) (st : List String × List Bool) (w : String) :
    (b.segStep st w).2 = st.2 ∨ (b.segStep st w).2 = st.2 ++ [false] := by
  unfold BPE.segStep
  split
  · left; rfl
  · right
    show (match (encode w b.bpe_codes []).1.getLast? with
      | some last =>
        (st.1 ++ ((encode w b.bpe_codes []).1.dropLast.map
            (fun item => item ++ b.separator)) ++ [last],
          st.2 ++ [(encode w b.bpe_codes []).2.2])
      | none => (st.1, st.2 ++ [(encode w b.bpe_codes []).2.2])).2 =
        st.2 ++ [false]
    cases hl : (encode w b.bpe_codes []).1.getLast? <;>
      simp [hl, encode_nil_cache_miss]

/-- Flags collected by folding `BPE.segStep` are all `false` when the
incoming flags are: every word's `encode` call starts from the empty cache. -/
theorem segStep_flags_false (b : BPE) :
    ∀ (words : List String) (st : List String × List Bool),
      (∀ f ∈ st.2, f = false) →
      ∀ f ∈ (words.foldl b.segStep st).2, f = false := by
  intro words
  induction words with
  | nil => intro st hst f hf; exact hst f hf
  | cons w ws ih =>
    intro st hst f hf
    rw [List.foldl_cons] at hf
    refine ih (b.segStep st w) ?_ f hf
    intro g hg
    rcases segStep_snd b st w with h | h
    · rw [h] at hg; exact hst g hg
    · rw [h] at hg
      rcases List.mem_append.mp hg with h1 | h1
      · exact hst g h1
      · simpa using h1

/-- C3 counterexample: the `BPE` object built by `__init__` (lines 173–179)
carries no cache attribute, and `BPE.segment` (line 189) calls
`encode(word, self.bpe_codes)` without a cache argument, so every `encode`
call starts from a fresh empty dict.  Concretely: a call of `segment` on
`"ab"` runs the merge algorithm (`hit = false`); a second call on the same
instance is the same stateless evaluation and again reports `hit = false`;
even the repeated word inside one sentence is re-encoded from scratch. -/
theorem c3_counterexample :
    (BPE.init ["a b"] "@@" none).segmentTrace "ab" = ("ab", [false]) ∧
      (BPE.init ["a b"] "@@" none).segmentTrace "ab ab" =
        ("ab ab", [false, false]) :=
  ⟨rfl, rfl⟩

/-- C3 amended: `encode` does support a caller-supplied cache — a hit returns
the stored result unconditionally, bypassing the merge algorithm entirely
(first part: the stored binding is returned whatever it is, the merge table
notwithstanding) — but `BPE.segment` never supplies one, so every `encode`
call it makes starts from the empty cache and no segmentation result is ever
reused, within a call or across calls (second part: every recorded cache-hit
flag is `false`). -/
theorem c3_amended :
    (∀ (orig : String) (table : List (List String × Nat))
        (cache : List (String × List String)) (r : List String),
        (cache.find? (fun p => p.1 = orig)).map Prod.snd = some r →
        encode orig table cache = (r, cache, true)) ∧
    (∀ (b : BPE) (sentence : String) (flag : Bool),
        flag ∈ (b.segmentTrace sentence).2 → flag = false) := by
  constructor
  · intro orig table cache r h
    unfold encode
    rw [h]
  · intro b sentence flag hf
    exact segStep_flags_false b (splitWs sentence) ([], []) (by simp) flag hf

/-- Witness for C3 amended: a poisoned cache binding for `"ab"` is returned
as-is (no merge pass consults the table), and the flags of a concrete
segmentation are all `false`. -/
theorem c3_amended_witness :
    encode "ab" (mkBpeCodesList ["a b"]) [("ab", ["zz"])] =
      (["zz"], [("ab", ["zz"])], true) ∧
    (false ∈ ((BPE.init ["a b"] "@@" none).segmentTrace "ab").2 → false = false) :=
  ⟨c3_amended.1 "ab" (mkBpeCodesList ["a b"]) [("ab", ["zz"])] ["zz"] (by decide),
   fun h => c3_amended.2 (BPE.init ["a b"] "@@" none) "ab" false h⟩

/-- C6 counterexample: with non-blank input `"hello"` and a tokenizer stdout
stream that closes before producing any line, `tokenize` (lines 217–240)
returns the empty token list normally.  At end-of-stream `readline` returns
`''`, which exits the `while segment == '\n'` loop; the empty line is then
stripped and split into no tokens.  No `TokenizerProtocolError` (or any other
exception) exists in this code path. -/
theorem c6_counterexample :
    DataProcessor.tokenize false (BPE.init [] "@@" none) "hello" [] = [] :=
  rfl

/-- C6 amended: for every non-blank input text and every stdout stream
consisting only of blank lines before closing (so no non-blank line arrives),
`tokenize` silently returns the empty token list instead of failing. -/
theorem c6_amended (u : Bool) (b : BPE) (text : String) (n : Nat)
    (h : stripChars text.data ≠ []) :
    DataProcessor.tokenize u b text (List.replicate n "\n") = [] := by
  unfold DataProcessor.tokenize
  rw [if_neg (by simpa [List.length_eq_zero] using h)]
  have hskip : skipBlankLines (List.replicate n "\n") = ("", []) := by
    induction n with
    | zero => rfl
    | succ n ih => simpa [List.replicate_succ, skipBlankLines] using ih
  rw [hskip]
  cases u <;> rfl

/-- Witness for C6 amended at a concrete call: two blank lines, then the
stream closes. -/
theorem c6_amended_witness :
    DataProcessor.tokenize true (BPE.init ["a b"] "@@" none) "hi"
      (List.replicate 2 "\n") = [] :=
  c6_amended true (BPE.init ["a b"] "@@" none) "hi" 2 (by decide)

/-- Witness for C8 at a concrete duplicated table: in
`["a b", "b c", "a b"]` the pair `(a, b)` occurs at indices 0 and 2; the
table keeps priority 0. -/
theorem c8_first_occurrence_priority_witness :
    (["a b", "b c", "a b"].map splitWs).get? 2 = some ["a", "b"] ∧
      ∃ j, j ≤ 2 ∧ (["a b", "b c", "a b"].map splitWs).get? j = some ["a", "b"] ∧
        pyDictGet (mkBpeCodesList ["a b", "b c", "a b"]) ["a", "b"] = some j ∧
        ∀ j', j' < j → (["a b", "b c", "a b"].map splitWs).get? j' ≠ some ["a", "b"] :=
  ⟨by decide, c8_first_occurrence_priority ["a b", "b c", "a b"] ["a", "b"] 2 (by decide)⟩

/-- A successful run of the skip loop decomposes the remaining tokenized
suffix as skipped characters followed by the matching character, and returns
the cursor advanced by the number of skipped characters. -/
theorem skipLoop_ok (S E : List Nat) (c : Char) :
    ∀ (rem : List Char) (ti off : Nat) (ts : Option Nat) (acc : List (Nat × Nat))
      (out : Nat × Nat × Option Nat × List (Nat × Nat)),
      skipLoop S E c rem ti off ts acc = .ok out →
      ∃ pre rest, rem = pre ++ c :: rest ∧ out.1 = ti + pre.length := by
  intro rem
  induction rem with
  | nil =>
    intro ti off ts acc out h
    exact Except.noConfusion h
  | cons t rem' ih =>
    intro ti off ts acc out h
    unfold skipLoop at h
    by_cases ht : t = c
    · rw [if_pos ht] at h
      refine ⟨[], rem', by simp [ht], ?_⟩
      cases h
      rfl
    · rw [if_neg ht] at h
      cases hsc : spanCheck S E (ti + 1) (off + 1) ts acc with
      | error e => rw [hsc] at h; exact Except.noConfusion h
      | ok p =>
        obtain ⟨ts', acc'⟩ := p
        rw [hsc] at h
        dsimp only at h
        obtain ⟨pre', rest, hdec, hout⟩ := ih (ti + 1) (off + 1) ts' acc' out h
        refine ⟨t :: pre', rest, by rw [List.cons_append, hdec], ?_⟩
        rw [hout]
        simp only [List.length_cons]
        omega

/-- If the remap loop succeeds, every remaining detokenized character occurs
in the remaining tokenized suffix. -/
theorem remapLoop_ok_mem (S E : List Nat) (tok : List Char) :
    ∀ (det : List Char) (ti off : Nat) (ts : Option Nat)
      (acc : List (Nat × Nat)) (r : List (Nat × Nat)),
      remapLoop tok S E det ti off ts acc = .ok r →
      ∀ c ∈ det, c ∈ tok.drop ti := by
  intro det
  induction det with
  | nil => intro ti off ts acc r h c hc; exact absurd hc (List.not_mem_nil c)
  | cons c0 det' ih =>
    intro ti off ts acc r h c hc
    unfold remapLoop at h
    cases hsc : spanCheck S E ti off ts acc with
    | error e => rw [hsc] at h; exact Except.noConfusion h
    | ok p =>
      obtain ⟨ts1, acc1⟩ := p
      rw [hsc] at h
      dsimp only at h
      cases hsk : skipLoop S E c0 (tok.drop ti) ti off ts1 acc1 with
      | error e => rw [hsk] at h; exact Except.noConfusion h
      | ok out =>
        obtain ⟨ti2, off2, ts2, acc2⟩ := out
        rw [hsk] at h
        dsimp only at h
        obtain ⟨pre, rest, hdec, hout⟩ :=
          skipLoop_ok S E c0 _ ti off ts1 acc1 (ti2, off2, ts2, acc2) hsk
        rcases List.mem_cons.mp hc with hceq | hcmem
        · rw [hceq, hdec]
          exact List.mem_append.mpr (Or.inr (List.mem_cons_self c0 rest))
        · have hdrop : tok.drop (ti2 + 1) = rest := by
            have h1 : ti2 + 1 = ti + (pre.length + 1) := by
              simp only at hout; omega
            rw [h1, ← List.drop_drop (pre.length + 1) ti tok, hdec,
              List.drop_append 1]
            rfl
          have hmem := ih (ti2 + 1) off2 ts2 acc2 r h c hcmem
          rw [hdrop] at hmem
          rw [hdec]
          exact List.mem_append.mpr (Or.inr (List.mem_cons_of_mem c0 hmem))

/-- With no registered span boundaries the registration check is a no-op. -/
theorem spanCheck_nil (ti off : Nat) (ts : Option Nat) (acc : List (Nat × Nat)) :
    spanCheck [] [] ti off ts acc = .ok (ts, acc) := by
  simp [spanCheck]

/-- With no registered boundaries and no occurrence of the sought character,
the skip loop runs off the end of the tokenized sequence: the overrun error. -/
theorem skipLoop_nil_not_mem (c : Char) :
    ∀ (rem : List Char) (ti off : Nat) (ts : Option Nat) (acc : List (Nat × Nat)),
      c ∉ rem →
      skipLoop [] [] c rem ti off ts acc = .error .alignmentOverrun := by
  intro rem
  induction rem with
  | nil => intro ti off ts acc _; rfl
  | cons t rem' ih =>
    intro ti off ts acc hc
    unfold skipLoop
    rw [if_neg (by intro h; exact hc (by rw [h]; exact List.mem_cons_self c rem'))]
    rw [spanCheck_nil]
    exact ih (ti + 1) (off + 1) ts acc (fun h => hc (List.mem_cons_of_mem t h))

/-- With no registered boundaries and an occurrence of the sought character,
the skip loop succeeds, advancing past the skipped characters and leaving the
span state untouched. -/
theorem skipLoop_nil_mem (c : Char) :
    ∀ (rem : List Char) (ti off : Nat) (ts : Option Nat) (acc : List (Nat × Nat)),
      c ∈ rem →
      ∃ pre rest, rem = pre ++ c :: rest ∧ c ∉ pre ∧
        skipLoop [] [] c rem ti off ts acc =
          .ok (ti + pre.length, off + pre.length, ts, acc) := by
  intro rem
  induction rem with
  | nil => intro ti off ts acc hc; exact absurd hc (List.not_mem_nil c)
  | cons t rem' ih =>
    intro ti off ts acc hc
    by_cases ht : t = c
    · refine ⟨[], rem', by simp [ht], by simp, ?_⟩
      unfold skipLoop
      rw [if_pos ht]
      rfl
    · have hc' : c ∈ rem' := by
        rcases List.mem_cons.mp hc with h | h
        · exact absurd h.symm ht
        · exact h
      obtain ⟨pre', rest, hdec, hpre, hok⟩ := ih (ti + 1) (off + 1) ts acc hc'
      refine ⟨t :: pre', rest, by rw [List.cons_append, hdec], ?_, ?_⟩
      · intro h
        rcases List.mem_cons.mp h with h | h
        · exact ht h.symm
        · exact hpre h
      · unfold skipLoop
        rw [if_neg ht, spanCheck_nil]
        dsimp only
        rw [hok]
        simp only [List.length_cons]
        rw [show ti + (pre'.length + 1) = ti + 1 + pre'.length by omega,
          show off + (pre'.length + 1) = off + 1 + pre'.length by omega]

/-- With no registered boundaries, a detokenized character that does not
occur in the remaining tokenized suffix makes the whole remap loop fail with
the overrun error. -/
theorem remapLoop_nil_overrun (tok : List Char) :
    ∀ (det : List Char) (ti off : Nat) (ts : Option Nat)
      (acc : List (Nat × Nat)) (c : Char),
      c ∈ det → c ∉ tok.drop ti →
      remapLoop tok [] [] det ti off ts acc = .error .alignmentOverrun := by
  intro det
  induction det with
  | nil => intro ti off ts acc c hc _; exact absurd hc (List.not_mem_nil c)
  | cons c0 det' ih =>
    intro ti off ts acc c hc hnot
    unfold remapLoop
    rw [spanCheck_nil]
    dsimp only
    by_cases hmem : c0 ∈ tok.drop ti
    · obtain ⟨pre, rest, hdec, -, hok⟩ :=
        skipLoop_nil_mem c0 (tok.drop ti) ti off ts acc hmem
      rw [hok]
      dsimp only
      have hcne : c ≠ c0 := fun h => hnot (h ▸ hmem)
      have hcdet : c ∈ det' := by
        rcases List.mem_cons.mp hc with h | h
        · exact absurd h hcne
        · exact h
      refine ih (ti + pre.length + 1) (off + pre.length) ts acc c hcdet ?_
      have hdrop : tok.drop (ti + pre.length + 1) = rest := by
        rw [show ti + pre.length + 1 = ti + (pre.length + 1) by omega,
          ← List.drop_drop (pre.length + 1) ti tok, hdec, List.drop_append 1]
        rfl
      rw [hdrop]
      intro h
      exact hnot (hdec ▸ List.mem_append.mpr
        (Or.inr (List.mem_cons_of_mem c0 h)))
    · rw [skipLoop_nil_not_mem c0 (tok.drop ti) ti off ts acc hmem]

/-- The consecutive indices `j, j+1, ..., j+n-1`. -/
def idxList (j : Nat) : Nat → List Nat
  | 0 => []
  | n + 1 => j :: idxList (j + 1) n

/-- The effect of one checked position on the span state, expressed in
detokenized coordinates: the position is tested as a span start first and as
a span end only otherwise, mirroring the `if`/`elif` of lines 35–41. -/
def detStep (dS dE : List Nat) (j : Nat) (ts : Option Nat)
    (acc : List (Nat × Nat)) : Except RemapError (Option Nat × List (Nat × Nat)) :=
  if j ∈ dS then .ok (some j, acc)
  else if j ∈ dE then
    match ts with
    | none => .error .orphanSpanEnd
    | some s => .ok (none, acc ++ [(s, j)])
  else .ok (ts, acc)

/-- Folding `detStep` over a list of positions. -/
def detRun (dS dE : List Nat) : List Nat → Option Nat → List (Nat × Nat) →
    Except RemapError (Option Nat × List (Nat × Nat))
  | [], ts, acc => .ok (ts, acc)
  | j :: js, ts, acc =>
    match detStep dS dE j ts acc with
    | .error e => .error e
    | .ok (ts', acc') => detRun dS dE js ts' acc'

/-- The final flush of a pending span (lines 63–65), in detokenized
coordinates: position `m` is the length of the detokenized sequence. -/
def flushAt (m : Nat) :
    Except RemapError (Option Nat × List (Nat × Nat)) →
    Except RemapError (List (Nat × Nat))
  | .error e => .error e
  | .ok (some s, acc) => .ok (acc ++ [(s, m)])
  | .ok (none, acc) => .ok acc

/-- The detokenized-coordinate state machine equivalent to the remap walk:
process positions `j .. j+n-1`, then flush at `j + n`. -/
def detRemap (dS dE : List Nat) (j n : Nat) (ts : Option Nat)
    (acc : List (Nat × Nat)) : Except RemapError (List (Nat × Nat)) :=
  flushAt (j + n) (detRun dS dE (idxList j n) ts acc)

/-- Interleaving of removed-character runs with detokenized characters: the
tokenized sequence is `skips₀ ++ [det₀] ++ skips₁ ++ [det₁] ++ ...`, so the
detokenized sequence arises from the tokenized one exactly by removing each
`skipsᵢ` run (for the separator transformation of the specification,
`skipsᵢ` is `"@@ "` at each subword boundary and empty elsewhere). -/
def interleave : List (List Char) → List Char → List Char
  | sk :: sks, c :: ds => sk ++ c :: interleave sks ds
  | _, _ => []

/-- Number of characters removed before the `j`-th detokenized character:
the total length of the first `j` skip runs. -/
def preSum : List (List Char) → Nat → Nat
  | _, 0 => 0
  | [], _ + 1 => 0
  | sk :: sks, j + 1 => sk.length + preSum sks j

/-- The tokenized position of the `j`-th detokenized character (and, for
`j` the detokenized length, the tokenized length): the canonical inverse
offset map carrying detokenized coordinates back to tokenized ones. -/
def posOf (skips : List (List Char)) (j : Nat) : Nat :=
  j + preSum skips (j + 1)

/-- Registration-key layout hypothesis for the remap walk: along the
remaining skip blocks starting at tokenized cursor `ti` and detokenized
index `j`, the interior positions of each block carry no registered
boundary, and the block's matched position is registered as a start (end)
exactly when `j` is in the detokenized-coordinate start (end) set. -/
def keysAligned (S E dS dE : List Nat) : List (List Char) → Nat → Nat → Prop
  | [], _, _ => True
  | sk :: sks, ti, j =>
    (∀ k, k < sk.length → (ti + k) ∉ S ∧ (ti + k) ∉ E) ∧
    ((ti + sk.length) ∈ S ↔ j ∈ dS) ∧ ((ti + sk.length) ∈ E ↔ j ∈ dE) ∧
    keysAligned S E dS dE sks (ti + sk.length + 1) (j + 1)

/-- A position carrying no registered boundary leaves the span state
unchanged. -/
theorem spanCheck_no_key (S E : List Nat) (p off : Nat) (ts : Option Nat)
    (acc : List (Nat × Nat)) (hs : p ∉ S) (he : p ∉ E) :
    spanCheck S E p off ts acc = .ok (ts, acc) := by
  unfold spanCheck
  rw [if_neg hs, if_neg he]

/-- A det-space position carrying no boundary leaves the machine state
unchanged. -/
theorem detStep_no_key (dS dE : List Nat) (j : Nat) (ts : Option Nat)
    (acc : List (Nat × Nat)) (hs : j ∉ dS) (he : j ∉ dE) :
    detStep dS dE j ts acc = .ok (ts, acc) := by
  unfold detStep
  rw [if_neg hs, if_neg he]

/-- Running the machine over positions carrying no boundary is a no-op. -/
theorem detRun_no_keys (dS dE : List Nat) :
    ∀ (js : List Nat) (ts : Option Nat) (acc : List (Nat × Nat)),
      (∀ j ∈ js, j ∉ dS ∧ j ∉ dE) →
      detRun dS dE js ts acc = .ok (ts, acc) := by
  intro js
  induction js with
  | nil => intro ts acc _; rfl
  | cons j js' ih =>
    intro ts acc h
    unfold detRun
    rw [detStep_no_key dS dE j ts acc (h j (List.mem_cons_self j js')).1
      (h j (List.mem_cons_self j js')).2]
    exact ih ts acc (fun x hx => h x (List.mem_cons_of_mem j hx))

/-- Splitting a machine run at a list concatenation. -/
theorem detRun_append (dS dE : List Nat) :
    ∀ (l1 l2 : List Nat) (ts : Option Nat) (acc : List (Nat × Nat)),
      detRun dS dE (l1 ++ l2) ts acc =
        match detRun dS dE l1 ts acc with
        | .error e => .error e
        | .ok (ts', acc') => detRun dS dE l2 ts' acc' := by
  intro l1
  induction l1 with
  | nil => intro l2 ts acc; rfl
  | cons j l1' ih =>
    intro l2 ts acc
    rw [List.cons_append]
    have hL : detRun dS dE (j :: (l1' ++ l2)) ts acc =
        match detStep dS dE j ts acc with
        | .error e => .error e
        | .ok (ts1, acc1) => detRun dS dE (l1' ++ l2) ts1 acc1 := rfl
    have hR : detRun dS dE (j :: l1') ts acc =
        match detStep dS dE j ts acc with
        | .error e => .error e
        | .ok (ts1, acc1) => detRun dS dE l1' ts1 acc1 := rfl
    rw [hL, hR]
    cases hst : detStep dS dE j ts acc with
    | error e => rfl
    | ok p =>
      obtain ⟨ts1, acc1⟩ := p
      exact ih l2 ts1 acc1

/-- Membership in a consecutive index list. -/
theorem mem_idxList : ∀ (n j x : Nat), x ∈ idxList j n ↔ j ≤ x ∧ x < j + n := by
  intro n
  induction n with
  | zero => intro j x; simp [idxList]
  | succ n ih =>
    intro j x
    unfold idxList
    rw [List.mem_cons, ih (j + 1) x]
    omega

/-- Concatenation of consecutive index lists. -/
theorem idxList_append : ∀ (a : Nat) (j b : Nat),
    idxList j (a + b) = idxList j a ++ idxList (j + a) b := by
  intro a
  induction a with
  | zero => intro j b; simp [idxList]
  | succ a ih =>
    intro j b
    have h1 : idxList j (a + 1 + b) = j :: idxList (j + 1) (a + b) := by
      rw [show a + 1 + b = (a + b) + 1 by omega]
      rfl
    have h2 : idxList j (a + 1) = j :: idxList (j + 1) a := rfl
    rw [h1, h2, ih (j + 1) b, List.cons_append,
      show j + 1 + a = j + (a + 1) by omega]

/-- `preSum` is monotone in the number of blocks counted. -/
theorem preSum_mono : ∀ (skips : List (List Char)) (i j : Nat), i ≤ j →
    preSum skips i ≤ preSum skips j := by
  intro skips
  induction skips with
  | nil =>
    intro i j _
    match i, j with
    | 0, 0 => exact Nat.le_refl _
    | 0, _ + 1 => exact Nat.zero_le _
    | _ + 1, 0 => exact Nat.zero_le _
    | _ + 1, _ + 1 => exact Nat.le_refl _
  | cons sk sks ih =>
    intro i j hij
    match i, j with
    | 0, 0 => exact Nat.le_refl _
    | 0, j + 1 => exact Nat.zero_le _
    | i + 1, j + 1 =>
      have := ih i j (by omega)
      unfold preSum
      omega

/-- `posOf` is monotone. -/
theorem posOf_mono (skips : List (List Char)) (a b : Nat) (h : a ≤ b) :
    posOf skips a ≤ posOf skips b := by
  unfold posOf
  have := preSum_mono skips (a + 1) (b + 1) (by omega)
  omega

/-- `posOf` is strictly monotone. -/
theorem posOf_strictMono (skips : List (List Char)) (a b : Nat) (h : a < b) :
    posOf skips a < posOf skips b := by
  unfold posOf
  have := preSum_mono skips (a + 1) (b + 1) (by omega)
  omega

/-- `posOf` is injective. -/
theorem posOf_inj (skips : List (List Char)) (a b : Nat)
    (h : posOf skips a = posOf skips b) : a = b := by
  rcases Nat.lt_trichotomy a b with hab | hab | hab
  · exact absurd h (Nat.ne_of_lt (posOf_strictMono skips a b hab))
  · exact hab
  · exact absurd h.symm (Nat.ne_of_lt (posOf_strictMono skips b a hab))

/-- Zero blocks contribute nothing. -/
theorem preSum_zero (skips : List (List Char)) : preSum skips 0 = 0 := by
  cases skips <;> rfl

/-- The block at index `j` contributes its length to the next prefix sum. -/
theorem preSum_succ_of_drop :
    ∀ (j : Nat) (skips : List (List Char)) (sk : List Char) (rest : List (List Char)),
      skips.drop j = sk :: rest →
      preSum skips (j + 1) = preSum skips j + sk.length := by
  intro j
  induction j with
  | zero =>
    intro skips sk rest h
    rw [List.drop_zero] at h
    rw [h]
    unfold preSum
    rw [preSum_zero]
    omega
  | succ j ih =>
    intro skips sk rest h
    match skips with
    | [] => simp at h
    | s0 :: tail =>
      have h' : tail.drop j = sk :: rest := by simpa using h
      have := ih tail sk rest h'
      unfold preSum
      omega

/-- Walking the skip loop through a non-empty removed run `y :: sk'` whose
interior positions carry no registered boundary: the loop performs the
registration check at each skipped position — all no-ops except possibly the
last, the matched position `ti + sk'.length + 1` — and stops there. -/
theorem skipLoop_cons (S E : List Nat) (c t : Char) (rem : List Char)
    (ti off : Nat) (ts : Option Nat) (acc : List (Nat × Nat)) :
    skipLoop S E c (t :: rem) ti off ts acc =
      if t = c then .ok (ti, off, ts, acc)
      else
        match spanCheck S E (ti + 1) (off + 1) ts acc with
        | .error e => .error e
        | .ok (ts', acc') => skipLoop S E c rem (ti + 1) (off + 1) ts' acc' :=
  rfl

theorem skipLoop_block (S E : List Nat) (c : Char) :
    ∀ (sk' : List Char) (y : Char) (rest : List Char) (ti off : Nat)
      (ts : Option Nat) (acc : List (Nat × Nat)),
      y ≠ c → c ∉ sk' →
      (∀ k, 1 ≤ k → k ≤ sk'.length → (ti + k) ∉ S ∧ (ti + k) ∉ E) →
      skipLoop S E c ((y :: sk') ++ c :: rest) ti off ts acc =
        match spanCheck S E (ti + sk'.length + 1) (off + sk'.length + 1) ts acc with
        | .error e => .error e
        | .ok (ts1, acc1) =>
          .ok (ti + sk'.length + 1, off + sk'.length + 1, ts1, acc1) := by
  intro sk'
  induction sk' with
  | nil =>
    intro y rest ti off ts acc hy _ _
    simp only [List.length_nil, Nat.add_zero, List.singleton_append]
    rw [skipLoop_cons, if_neg hy]
    cases hsc : spanCheck S E (ti + 1) (off + 1) ts acc with
    | error e => rfl
    | ok p =>
      obtain ⟨ts1, acc1⟩ := p
      dsimp only
      rw [skipLoop_cons, if_pos rfl]
  | cons z sk'' ih =>
    intro y rest ti off ts acc hy hnotin hkeys
    simp only [List.length_cons, List.cons_append]
    rw [skipLoop_cons, if_neg hy]
    have hk1 : (ti + 1) ∉ S ∧ (ti + 1) ∉ E := hkeys 1 (Nat.le_refl _) (by simp)
    rw [spanCheck_no_key S E (ti + 1) (off + 1) ts acc hk1.1 hk1.2]
    dsimp only
    have hz : z ≠ c := fun h => hnotin (by rw [h]; exact List.mem_cons_self c sk'')
    have hnotin' : c ∉ sk'' := fun h => hnotin (List.mem_cons_of_mem z h)
    have hkeys' : ∀ k, 1 ≤ k → k ≤ sk''.length →
        (ti + 1 + k) ∉ S ∧ (ti + 1 + k) ∉ E := by
      intro k h1 h2
      have := hkeys (k + 1) (by omega) (by simp only [List.length_cons]; omega)
      rwa [show ti + (k + 1) = ti + 1 + k by omega] at this
    have hi := ih z rest (ti + 1) (off + 1) ts acc hz hnotin' hkeys'
    rw [List.cons_append] at hi
    rw [hi]
    rw [show ti + 1 + sk''.length + 1 = ti + (sk''.length + 1) + 1 by omega,
      show off + 1 + sk''.length + 1 = off + (sk''.length + 1) + 1 by omega]

/-- The registration check at the matched position of detokenized index `j`
is exactly the det-space machine step at `j`: the tested position is a
registered start (end) precisely when `j` is a det-space start (end), and the
recorded value `p - off` is `j`. -/
theorem spanCheck_detStep (S E dS dE : List Nat) (p off' j : Nat)
    (ts : Option Nat) (acc : List (Nat × Nat))
    (hS : p ∈ S ↔ j ∈ dS) (hE : p ∈ E ↔ j ∈ dE) (hval : p = off' + j) :
    spanCheck S E p off' ts acc = detStep dS dE j ts acc := by
  unfold spanCheck detStep
  have hsub : p - off' = j := by omega
  by_cases h1 : j ∈ dS
  · rw [if_pos (hS.mpr h1), if_pos h1, hsub]
  · rw [if_neg (fun h => h1 (hS.mp h)), if_neg h1]
    by_cases h2 : j ∈ dE
    · rw [if_pos (hE.mpr h2), if_pos h2]
      cases ts with
      | none => rfl
      | some s => rw [hsub]
    · rw [if_neg (fun h => h2 (hE.mp h)), if_neg h2]

/-- Peeling one position off the det-space machine. -/
theorem detRemap_cons (dS dE : List Nat) (j n : Nat) (ts : Option Nat)
    (acc : List (Nat × Nat)) :
    detRemap dS dE j (n + 1) ts acc =
      match detStep dS dE j ts acc with
      | .error e => .error e
      | .ok (ts1, acc1) => detRemap dS dE (j + 1) n ts1 acc1 := by
  unfold detRemap
  rw [show j + (n + 1) = (j + 1) + n by omega]
  have h1 : idxList j (n + 1) = j :: idxList (j + 1) n := rfl
  rw [h1]
  have h2 : detRun dS dE (j :: idxList (j + 1) n) ts acc =
      match detStep dS dE j ts acc with
      | .error e => .error e
      | .ok (ts1, acc1) => detRun dS dE (idxList (j + 1) n) ts1 acc1 := rfl
  rw [h2]
  cases hst : detStep dS dE j ts acc with
  | error e => rfl
  | ok p =>
    obtain ⟨ts1, acc1⟩ := p
    rfl

/-- Master simulation lemma: under the canonical alignment — the tokenized
suffix from the cursor is the interleaving of the remaining skip runs with
the remaining detokenized characters, every detokenized character differs
from each character of its preceding skip run, and the registered boundaries
sit exactly at matched positions as described by `keysAligned` — the remap
walk computes the det-space state machine over the remaining detokenized
indices, flushing at the final index. -/
theorem remapLoop_detRemap (tok : List Char) (S E dS dE : List Nat) :
    ∀ (det : List Char) (skips : List (List Char)) (ti off j : Nat)
      (ts : Option Nat) (acc : List (Nat × Nat)),
      skips.length = det.length →
      (∀ pr ∈ skips.zip det, pr.2 ∉ pr.1) →
      tok.drop ti = interleave skips det →
      ti = off + j →
      keysAligned S E dS dE skips ti j →
      remapLoop tok S E det ti off ts acc = detRemap dS dE j det.length ts acc := by
  intro det
  induction det with
  | nil =>
    intro skips ti off j ts acc hlen _ _ hti _
    cases ts with
    | none => rfl
    | some s =>
      show .ok (acc ++ [(s, ti - off)]) = detRemap dS dE j 0 (some s) acc
      rw [show ti - off = j by omega]
      rfl
  | cons c det' ih =>
    intro skips ti off j ts acc hlen hzip hdrop hti hkeys
    match skips with
    | [] => simp at hlen
    | sk :: skips' =>
      obtain ⟨hinner, hS, hE, hrec⟩ := hkeys
      have hlen' : skips'.length = det'.length := by simpa using hlen
      have hzipc : c ∉ sk := hzip (sk, c) (by
        rw [List.zip_cons_cons]; exact List.mem_cons_self (sk, c) _)
      have hzip' : ∀ pr ∈ skips'.zip det', pr.2 ∉ pr.1 := by
        intro pr hpr
        exact hzip pr (by rw [List.zip_cons_cons]; exact List.mem_cons_of_mem _ hpr)
      have hdropi : tok.drop ti = sk ++ c :: interleave skips' det' := hdrop
      rw [show (c :: det').length = det'.length + 1 from rfl, detRemap_cons]
      have hL : remapLoop tok S E (c :: det') ti off ts acc =
          match spanCheck S E ti off ts acc with
          | .error e => .error e
          | .ok (ts1, acc1) =>
            match skipLoop S E c (tok.drop ti) ti off ts1 acc1 with
            | .error e => .error e
            | .ok (ti2, off2, ts2, acc2) =>
              remapLoop tok S E det' (ti2 + 1) off2 ts2 acc2 := rfl
      rw [hL]
      match sk, hinner, hS, hE, hrec, hzipc, hdropi with
      | [], hinner, hS, hE, hrec, hzipc, hdropi =>
        rw [spanCheck_detStep S E dS dE ti off j ts acc hS hE hti]
        cases hst : detStep dS dE j ts acc with
        | error e => rfl
        | ok p =>
          obtain ⟨ts1, acc1⟩ := p
          dsimp only
          have hsk1 : skipLoop S E c (tok.drop ti) ti off ts1 acc1 =
              .ok (ti, off, ts1, acc1) := by
            rw [show tok.drop ti = c :: interleave skips' det' from hdropi]
            unfold skipLoop
            rw [if_pos rfl]
          rw [hsk1]
          dsimp only
          refine ih skips' (ti + 1) off (j + 1) ts1 acc1 hlen' hzip' ?_ (by omega) hrec
          rw [← List.drop_drop 1 ti tok,
            show tok.drop ti = c :: interleave skips' det' from hdropi]
          rfl
      | y :: sk', hinner, hS, hE, hrec, hzipc, hdropi =>
        have hk0 : ti ∉ S ∧ ti ∉ E := hinner 0 (by simp)
        rw [spanCheck_no_key S E ti off ts acc hk0.1 hk0.2]
        dsimp only
        have hy : y ≠ c := by
          intro h
          exact hzipc (by rw [h]; exact List.mem_cons_self c sk')
        have hsk' : c ∉ sk' := fun h => hzipc (List.mem_cons_of_mem y h)
        have hkin : ∀ k, 1 ≤ k → k ≤ sk'.length → (ti + k) ∉ S ∧ (ti + k) ∉ E := by
          intro k h1 h2
          exact hinner k (by simp; omega)
        rw [show tok.drop ti = (y :: sk') ++ c :: interleave skips' det' from hdropi,
          skipLoop_block S E c sk' y (interleave skips' det') ti off ts acc hy hsk' hkin]
        have hSp : (ti + sk'.length + 1) ∈ S ↔ j ∈ dS := hS
        have hEp : (ti + sk'.length + 1) ∈ E ↔ j ∈ dE := hE
        rw [spanCheck_detStep S E dS dE (ti + sk'.length + 1) (off + sk'.length + 1)
          j ts acc hSp hEp (by omega)]
        cases hst : detStep dS dE j ts acc with
        | error e => rfl
        | ok p =>
          obtain ⟨ts1, acc1⟩ := p
          dsimp only
          refine ih skips' (ti + sk'.length + 1 + 1) (off + sk'.length + 1) (j + 1)
            ts1 acc1 hlen' hzip' ?_ (by omega) hrec
          rw [show ti + sk'.length + 1 + 1 = ti + (sk'.length + 2) by omega,
            ← List.drop_drop (sk'.length + 2) ti tok,
            show tok.drop ti = (y :: sk') ++ c :: interleave skips' det' from hdropi,
            show sk'.length + 2 = (y :: sk').length + 1 by simp,
            List.drop_append 1]
          rfl

/-- Unfolding one det-space machine step. -/
theorem detRun_cons (dS dE : List Nat) (j : Nat) (js : List Nat)
    (ts : Option Nat) (acc : List (Nat × Nat)) :
    detRun dS dE (j :: js) ts acc =
      match detStep dS dE j ts acc with
      | .error e => .error e
      | .ok (ts', acc') => detRun dS dE js ts' acc' :=
  rfl

/-- A position registered as a span start opens a pending span — even when
the position is also registered as a span end. -/
theorem detStep_start (dS dE : List Nat) (j : Nat) (ts : Option Nat)
    (acc : List (Nat × Nat)) (h : j ∈ dS) :
    detStep dS dE j ts acc = .ok (some j, acc) := by
  unfold detStep
  rw [if_pos h]

/-- A position registered only as a span end closes the pending span. -/
theorem detStep_close (dS dE : List Nat) (j s : Nat) (acc : List (Nat × Nat))
    (hs : j ∉ dS) (he : j ∈ dE) :
    detStep dS dE j (some s) acc = .ok (none, acc ++ [(s, j)]) := by
  unfold detStep
  rw [if_neg hs, if_pos he]

/-- The registered tokenized-space boundaries obtained by mapping det-space
boundaries through the canonical position map `posOf` satisfy the key-layout
hypothesis of the master lemma: interior skip positions are never boundary
images, and the matched position of det index `j` is a boundary image exactly
when `j` is a det-space boundary. -/
theorem keysAligned_posOf (dS dE : List Nat) (skipsAll : List (List Char)) :
    ∀ (skips' : List (List Char)) (j : Nat),
      skipsAll.drop j = skips' →
      keysAligned (dS.map (posOf skipsAll)) (dE.map (posOf skipsAll)) dS dE
        skips' (j + preSum skipsAll j) j := by
  intro skips'
  induction skips' with
  | nil => intro j _; exact trivial
  | cons sk rest ih =>
    intro j hdrop
    have hget : preSum skipsAll (j + 1) = preSum skipsAll j + sk.length :=
      preSum_succ_of_drop j skipsAll sk rest hdrop
    have hno : ∀ (dX : List Nat) (k : Nat), k < sk.length →
        (j + preSum skipsAll j + k) ∉ dX.map (posOf skipsAll) := by
      intro dX k hk hmem
      obtain ⟨t, htmem, ht⟩ := List.mem_map.mp hmem
      have e1 : posOf skipsAll t = t + preSum skipsAll (t + 1) := rfl
      rcases Nat.lt_or_ge t j with h | h
      · have h2 : preSum skipsAll (t + 1) ≤ preSum skipsAll j :=
          preSum_mono _ _ _ (by omega)
        omega
      · have h2 : preSum skipsAll (j + 1) ≤ preSum skipsAll (t + 1) :=
          preSum_mono _ _ _ (by omega)
        omega
    have hpos : j + preSum skipsAll j + sk.length = posOf skipsAll j := by
      unfold posOf
      omega
    have hiff : ∀ (dX : List Nat),
        ((j + preSum skipsAll j + sk.length) ∈ dX.map (posOf skipsAll) ↔ j ∈ dX) := by
      intro dX
      rw [hpos]
      constructor
      · intro hmem
        obtain ⟨t, htmem, ht⟩ := List.mem_map.mp hmem
        rwa [posOf_inj skipsAll t j ht] at htmem
      · intro hmem
        exact List.mem_map.mpr ⟨j, hmem, rfl⟩
    refine ⟨fun k hk => ⟨hno dS k hk, hno dE k hk⟩, hiff dS, hiff dE, ?_⟩
    have hdrop' : skipsAll.drop (j + 1) = rest := by
      rw [← List.drop_drop 1 j skipsAll, hdrop]
      rfl
    have := ih (j + 1) hdrop'
    rwa [show (j + 1) + preSum skipsAll (j + 1) =
      j + preSum skipsAll j + sk.length + 1 by omega] at this

/-- With no removed characters at all (every skip run empty), the key-layout
hypothesis holds for identical tokenized- and detokenized-space boundary
sets: every position is its own matched position. -/
theorem keysAligned_identity (S E : List Nat) :
    ∀ (n j : Nat), keysAligned S E S E (List.replicate n []) j j := by
  intro n
  induction n with
  | zero => intro j; exact trivial
  | succ n ih =>
    intro j
    rw [List.replicate_succ]
    exact ⟨fun k hk => by simp at hk, by simp, by simp, by simpa using ih (j + 1)⟩

/-- Interleaving with empty skip runs is the identity. -/
theorem interleave_replicate_nil :
    ∀ (l : List Char), interleave (List.replicate l.length []) l = l := by
  intro l
  induction l with
  | nil => rfl
  | cons c rest ih =>
    show interleave (List.replicate (rest.length + 1) []) (c :: rest) = c :: rest
    rw [List.replicate_succ]
    show [] ++ c :: interleave (List.replicate rest.length []) rest = c :: rest
    rw [ih]
    rfl

/-- Evaluation of the det-space machine on a strictly separated span chain:
every span is opened at its start, closed at its end (at the end position
when it is interior, by the final flush when it coincides with the
detokenized length), and the spans are emitted in order. -/
theorem detRun_chain (dS dE : List Nat) :
    ∀ (spans : List (Nat × Nat)) (c m : Nat) (acc : List (Nat × Nat)),
      c ≤ m →
      (∀ x, c ≤ x → (x ∈ dS ↔ ∃ pr ∈ spans, pr.1 = x)) →
      (∀ x, c ≤ x → (x ∈ dE ↔ ∃ pr ∈ spans, pr.2 = x)) →
      spans.Pairwise (fun a b => a.2 < b.1) →
      (∀ pr ∈ spans, c ≤ pr.1 ∧ pr.1 < pr.2 ∧ pr.2 ≤ m) →
      flushAt m (detRun dS dE (idxList c (m - c)) none acc) = .ok (acc ++ spans) := by
  intro spans
  induction spans with
  | nil =>
    intro c m acc hcm hS hE _ _
    have hnk : ∀ x ∈ idxList c (m - c), x ∉ dS ∧ x ∉ dE := by
      intro x hx
      have hcx : c ≤ x := ((mem_idxList (m - c) c x).mp hx).1
      refine ⟨fun hmem => ?_, fun hmem => ?_⟩
      · obtain ⟨pr, hpr, -⟩ := (hS x hcx).mp hmem
        exact absurd hpr (List.not_mem_nil pr)
      · obtain ⟨pr, hpr, -⟩ := (hE x hcx).mp hmem
        exact absurd hpr (List.not_mem_nil pr)
    rw [detRun_no_keys dS dE (idxList c (m - c)) none acc hnk, List.append_nil]
    rfl
  | cons hd rest ih =>
    obtain ⟨s, e⟩ := hd
    intro c m acc hcm hS hE hpw hbd
    obtain ⟨hcs, hse, hem⟩ := hbd (s, e) (List.mem_cons_self _ _)
    simp only at hcs hse hem
    have hpw' := (List.pairwise_cons.mp hpw).2
    have hhead : ∀ pr ∈ rest, e < pr.1 := fun pr h => by
      simpa using (List.pairwise_cons.mp hpw).1 pr h
    have hsplit1 : idxList c (m - c) = idxList c (s - c) ++ idxList s (m - s) := by
      rw [show m - c = (s - c) + (m - s) by omega, idxList_append,
        show c + (s - c) = s by omega]
    rw [hsplit1, detRun_append]
    have hnk1 : ∀ x ∈ idxList c (s - c), x ∉ dS ∧ x ∉ dE := by
      intro x hx
      have h1 := (mem_idxList (s - c) c x).mp hx
      refine ⟨fun hmem => ?_, fun hmem => ?_⟩
      · obtain ⟨pr, hpr, hpr1⟩ := (hS x h1.1).mp hmem
        rcases List.mem_cons.mp hpr with h | h
        · rw [h] at hpr1; simp at hpr1; omega
        · have := hhead pr h; omega
      · obtain ⟨pr, hpr, hpr2⟩ := (hE x h1.1).mp hmem
        rcases List.mem_cons.mp hpr with h | h
        · rw [h] at hpr2; simp at hpr2; omega
        · have h3 := hhead pr h
          have h4 := (hbd pr (List.mem_cons_of_mem _ h)).2.1
          omega
    rw [detRun_no_keys dS dE _ none acc hnk1]
    dsimp only
    rw [show m - s = (m - s - 1) + 1 by omega,
      show idxList s ((m - s - 1) + 1) = s :: idxList (s + 1) (m - s - 1) from rfl,
      detRun_cons,
      detStep_start dS dE s none acc
        ((hS s (by omega)).mpr ⟨(s, e), List.mem_cons_self _ _, rfl⟩)]
    dsimp only
    rcases Nat.eq_or_lt_of_le hem with heq | hlt
    · have hrestnil : rest = [] := by
        cases rest with
        | nil => rfl
        | cons pr2 rest2 =>
          have h1 := hhead pr2 (List.mem_cons_self _ _)
          have h2 := hbd pr2 (List.mem_cons_of_mem _ (List.mem_cons_self _ _))
          omega
      subst hrestnil
      have hnk2 : ∀ x ∈ idxList (s + 1) (m - s - 1), x ∉ dS ∧ x ∉ dE := by
        intro x hx
        have h1 := (mem_idxList (m - s - 1) (s + 1) x).mp hx
        refine ⟨fun hmem => ?_, fun hmem => ?_⟩
        · obtain ⟨pr, hpr, hpr1⟩ := (hS x (by omega)).mp hmem
          rcases List.mem_cons.mp hpr with h | h
          · rw [h] at hpr1; simp at hpr1; omega
          · exact absurd h (List.not_mem_nil pr)
        · obtain ⟨pr, hpr, hpr2⟩ := (hE x (by omega)).mp hmem
          rcases List.mem_cons.mp hpr with h | h
          · rw [h] at hpr2; simp at hpr2; omega
          · exact absurd h (List.not_mem_nil pr)
      rw [detRun_no_keys dS dE _ (some s) acc hnk2]
      show Except.ok (acc ++ [(s, m)]) = .ok (acc ++ [(s, e)])
      rw [heq]
    · have hsplit2 : idxList (s + 1) (m - s - 1) =
          idxList (s + 1) (e - s - 1) ++ idxList e (m - e) := by
        rw [show m - s - 1 = (e - s - 1) + (m - e) by omega, idxList_append,
          show s + 1 + (e - s - 1) = e by omega]
      rw [hsplit2, detRun_append]
      have hnk2 : ∀ x ∈ idxList (s + 1) (e - s - 1), x ∉ dS ∧ x ∉ dE := by
        intro x hx
        have h1 := (mem_idxList (e - s - 1) (s + 1) x).mp hx
        refine ⟨fun hmem => ?_, fun hmem => ?_⟩
        · obtain ⟨pr, hpr, hpr1⟩ := (hS x (by omega)).mp hmem
          rcases List.mem_cons.mp hpr with h | h
          · rw [h] at hpr1; simp at hpr1; omega
          · have := hhead pr h; omega
        · obtain ⟨pr, hpr, hpr2⟩ := (hE x (by omega)).mp hmem
          rcases List.mem_cons.mp hpr with h | h
          · rw [h] at hpr2; simp at hpr2; omega
          · have h3 := hhead pr h
            have h4 := (hbd pr (List.mem_cons_of_mem _ h)).2.1
            omega
      rw [detRun_no_keys dS dE _ (some s) acc hnk2]
      dsimp only
      rw [show m - e = (m - e - 1) + 1 by omega,
        show idxList e ((m - e - 1) + 1) = e :: idxList (e + 1) (m - e - 1) from rfl,
        detRun_cons]
      have hsnot : e ∉ dS := by
        intro hmem
        obtain ⟨pr, hpr, hpr1⟩ := (hS e (by omega)).mp hmem
        rcases List.mem_cons.mp hpr with h | h
        · rw [h] at hpr1; simp at hpr1; omega
        · have := hhead pr h; omega
      rw [detStep_close dS dE e s acc hsnot
        ((hE e (by omega)).mpr ⟨(s, e), List.mem_cons_self _ _, rfl⟩)]
      dsimp only
      have hS' : ∀ x, e + 1 ≤ x → (x ∈ dS ↔ ∃ pr ∈ rest, pr.1 = x) := by
        intro x hx
        rw [hS x (by omega)]
        constructor
        · rintro ⟨pr, hpr, hpr1⟩
          rcases List.mem_cons.mp hpr with h | h
          · exfalso; rw [h] at hpr1; simp at hpr1; omega
          · exact ⟨pr, h, hpr1⟩
        · rintro ⟨pr, hpr, hpr1⟩
          exact ⟨pr, List.mem_cons_of_mem _ hpr, hpr1⟩
      have hE' : ∀ x, e + 1 ≤ x → (x ∈ dE ↔ ∃ pr ∈ rest, pr.2 = x) := by
        intro x hx
        rw [hE x (by omega)]
        constructor
        · rintro ⟨pr, hpr, hpr2⟩
          rcases List.mem_cons.mp hpr with h | h
          · exfalso; rw [h] at hpr2; simp at hpr2; omega
          · exact ⟨pr, h, hpr2⟩
        · rintro ⟨pr, hpr, hpr2⟩
          exact ⟨pr, List.mem_cons_of_mem _ hpr, hpr2⟩
      have hb' : ∀ pr ∈ rest, e + 1 ≤ pr.1 ∧ pr.1 < pr.2 ∧ pr.2 ≤ m := by
        intro pr hpr
        have h1 := hhead pr hpr
        have h2 := hbd pr (List.mem_cons_of_mem _ hpr)
        exact ⟨by omega, h2.2.1, h2.2.2⟩
      have hIH := ih (e + 1) m (acc ++ [(s, e)]) (by omega) hS' hE' hpw' hb'
      rw [show m - (e + 1) = m - e - 1 by omega] at hIH
      rw [hIH, List.append_assoc]
      rfl

/-- Evaluation of the det-space machine on the collision configuration of
C10: spans `[a,p)` and `[p,b)` share the boundary position `p`, which is
registered both as an end and as a start.  The start test shadows the end
test, so the pending start `a` is overwritten by `p`, the first span is never
emitted, and only `[p,b)` survives. -/
theorem detRun_collision (a p b m : Nat) (acc : List (Nat × Nat))
    (ha : a < p) (hp : p < b) (hb : b ≤ m) :
    flushAt m (detRun [a, p] [p, b] (idxList 0 m) none acc) =
      .ok (acc ++ [(p, b)]) := by
  have hsplit1 : idxList 0 m = idxList 0 a ++ idxList a (m - a) := by
    rw [show m = a + (m - a) by omega, idxList_append]
    rw [show (0 : Nat) + a = a by omega, show a + (m - a) - a = m - a by omega]
  rw [hsplit1, detRun_append]
  have hnk1 : ∀ x ∈ idxList 0 a, x ∉ [a, p] ∧ x ∉ [p, b] := by
    intro x hx
    have h1 := (mem_idxList a 0 x).mp hx
    constructor
    · intro hmem; simp at hmem; omega
    · intro hmem; simp at hmem; omega
  rw [detRun_no_keys _ _ _ none acc hnk1]
  dsimp only
  rw [show m - a = (m - a - 1) + 1 by omega,
    show idxList a ((m - a - 1) + 1) = a :: idxList (a + 1) (m - a - 1) from rfl,
    detRun_cons, detStep_start [a, p] [p, b] a none acc (by simp)]
  dsimp only
  have hsplit2 : idxList (a + 1) (m - a - 1) =
      idxList (a + 1) (p - a - 1) ++ idxList p (m - p) := by
    rw [show m - a - 1 = (p - a - 1) + (m - p) by omega, idxList_append,
      show a + 1 + (p - a - 1) = p by omega]
  rw [hsplit2, detRun_append]
  have hnk2 : ∀ x ∈ idxList (a + 1) (p - a - 1), x ∉ [a, p] ∧ x ∉ [p, b] := by
    intro x hx
    have h1 := (mem_idxList (p - a - 1) (a + 1) x).mp hx
    constructor
    · intro hmem; simp at hmem; omega
    · intro hmem; simp at hmem; omega
  rw [detRun_no_keys _ _ _ (some a) acc hnk2]
  dsimp only
  rw [show m - p = (m - p - 1) + 1 by omega,
    show idxList p ((m - p - 1) + 1) = p :: idxList (p + 1) (m - p - 1) from rfl,
    detRun_cons, detStep_start [a, p] [p, b] p (some a) acc (by simp)]
  dsimp only
  rcases Nat.eq_or_lt_of_le hb with heq | hlt
  · have hnk3 : ∀ x ∈ idxList (p + 1) (m - p - 1), x ∉ [a, p] ∧ x ∉ [p, b] := by
      intro x hx
      have h1 := (mem_idxList (m - p - 1) (p + 1) x).mp hx
      constructor
      · intro hmem; simp at hmem; omega
      · intro hmem; simp at hmem; omega
    rw [detRun_no_keys _ _ _ (some p) acc hnk3]
    show Except.ok (acc ++ [(p, m)]) = .ok (acc ++ [(p, b)])
    rw [heq]
  · have hsplit3 : idxList (p + 1) (m - p - 1) =
        idxList (p + 1) (b - p - 1) ++ idxList b (m - b) := by
      rw [show m - p - 1 = (b - p - 1) + (m - b) by omega, idxList_append,
        show p + 1 + (b - p - 1) = b by omega]
    rw [hsplit3, detRun_append]
    have hnk3 : ∀ x ∈ idxList (p + 1) (b - p - 1), x ∉ [a, p] ∧ x ∉ [p, b] := by
      intro x hx
      have h1 := (mem_idxList (b - p - 1) (p + 1) x).mp hx
      constructor
      · intro hmem; simp at hmem; omega
      · intro hmem; simp at hmem; omega
    rw [detRun_no_keys _ _ _ (some p) acc hnk3]
    dsimp only
    rw [show m - b = (m - b - 1) + 1 by omega,
      show idxList b ((m - b - 1) + 1) = b :: idxList (b + 1) (m - b - 1) from rfl,
      detRun_cons, detStep_close [a, p] [p, b] b p acc (by simp; omega) (by simp)]
    dsimp only
    have hnk4 : ∀ x ∈ idxList (b + 1) (m - b - 1), x ∉ [a, p] ∧ x ∉ [p, b] := by
      intro x hx
      have h1 := (mem_idxList (m - b - 1) (b + 1) x).mp hx
      constructor
      · intro hmem; simp at hmem; omega
      · intro hmem; simp at hmem; omega
    rw [detRun_no_keys _ _ _ none (acc ++ [(p, b)]) hnk4]
    rfl

/-- C4 counterexample: the round trip fails for a non-overlapping span set in
which one span's end offset equals another span's start offset.  For
`tokenized = "fo@@ o bar"`, `detokenized = "foo bar"` (obtained only by
removing the separator pattern `"@@ "`), and the non-overlapping spans
`[[0,2],[2,6]]`, the remapper returns the single span `[[2,3]]`: position 2
is processed as a start only, so the first span is dropped and its pending
start overwritten.  No re-expansion of a one-element span list can return the
two original spans, so the round trip cannot recover the original
boundaries. -/
theorem c4_counterexample :
    remap_constraint_indices "fo@@ o bar" "foo bar" [(0, 2), (2, 6)] =
        .ok [(2, 3)] ∧
      [(2, 3)].length ≠ [(0, 2), (2, 6)].length :=
  ⟨rfl, by decide⟩

/-- C4 amended: the round trip holds under the conditions the counterexamples
force.  Model the transformation by skip runs: `tokenized` is the
interleaving of removed runs `skips` with the characters of `detokenized`
(for the `"@@ "` separator removal, `skipsᵢ` is `"@@ "` at each subword
boundary and empty otherwise), each detokenized character differs from every
character of its preceding removed run (the greedy skip then aligns
canonically), span boundaries lie on matched positions (the image of the
inverse-offset map `posOf`), and the spans are strictly separated — in
particular no span's end offset equals another span's start offset.  Then
`remap` of the `posOf`-expanded spans returns exactly the detokenized-space
spans, so re-expanding the result through `posOf` returns exactly the
original token-space boundaries. -/
theorem c4_amended (det : List Char) (skips : List (List Char))
    (dspans : List (Nat × Nat))
    (hlen : skips.length = det.length)
    (hsep : ∀ pr ∈ skips.zip det, pr.2 ∉ pr.1)
    (hpw : dspans.Pairwise (fun a b => a.2 < b.1))
    (hbd : ∀ pr ∈ dspans, pr.1 < pr.2 ∧ pr.2 ≤ det.length) :
    remapIndices (interleave skips det) det
      (dspans.map (fun pr => (posOf skips pr.1, posOf skips pr.2))) =
      .ok dspans := by
  unfold remapIndices
  have hSm : spanStarts (dspans.map (fun pr => (posOf skips pr.1, posOf skips pr.2))) =
      (spanStarts dspans).map (posOf skips) := by
    simp only [spanStarts, List.map_map]
    rfl
  have hEm : spanEnds (dspans.map (fun pr => (posOf skips pr.1, posOf skips pr.2))) =
      (spanEnds dspans).map (posOf skips) := by
    simp only [spanEnds, List.map_map]
    rfl
  rw [hSm, hEm]
  have hkeys := keysAligned_posOf (spanStarts dspans) (spanEnds dspans) skips
    skips 0 (List.drop_zero skips)
  rw [preSum_zero] at hkeys
  have hmaster := remapLoop_detRemap (interleave skips det)
    ((spanStarts dspans).map (posOf skips)) ((spanEnds dspans).map (posOf skips))
    (spanStarts dspans) (spanEnds dspans) det skips 0 0 0 none []
    hlen hsep (List.drop_zero _) rfl hkeys
  rw [hmaster]
  unfold detRemap
  rw [Nat.zero_add]
  have hchain := detRun_chain (spanStarts dspans) (spanEnds dspans) dspans 0
    det.length [] (Nat.zero_le _)
    (fun x _ => by
      show x ∈ dspans.map Prod.fst ↔ _
      exact List.mem_map)
    (fun x _ => by
      show x ∈ dspans.map Prod.snd ↔ _
      exact List.mem_map)
    hpw
    (fun pr h => ⟨Nat.zero_le _, (hbd pr h).1, (hbd pr h).2⟩)
  rw [List.nil_append] at hchain
  exact hchain

/-- Witness for C4 amended at the specification's own separator example:
`det = "foo bar"` with the removed run `"@@ "` before the second `o`, so
`tokenized = "fo@@ o bar"`; the detokenized-space span `[[0,3]]` expands
through `posOf` to the token-space span `[[0,6]]` and remaps back to
`[[0,3]]`. -/
theorem c4_amended_witness :
    remapIndices
      (interleave [[], [], ['@', '@', ' '], [], [], [], []] "foo bar".data)
      "foo bar".data
      ([(0, 3)].map (fun pr =>
        (posOf [[], [], ['@', '@', ' '], [], [], [], []] pr.1,
         posOf [[], [], ['@', '@', ' '], [], [], [], []] pr.2))) =
      .ok [(0, 3)] :=
  c4_amended "foo bar".data [[], [], ['@', '@', ' '], [], [], [], []] [(0, 3)]
    (by decide) (by decide) (by simp) (by decide)

/-- C10: in `remap_constraint_indices` each cursor position is tested as a
span start first and as a span end only otherwise (first part, directly
about the registration check of lines 35–41 and 53–59).  Consequently, when
one span's end offset equals another span's start offset, that position is
processed as a start only: the earlier span is never appended and its
pending start is overwritten — on identical tokenized and detokenized
sequences, the spans `[[a,p],[p,b]]` remap to `[[p,b]]` alone (second
part). -/
theorem c10_start_shadows_end (tok : List Char) (a p b : Nat)
    (ha : a < p) (hp : p < b) (hb : b ≤ tok.length) :
    (∀ (starts ends : List Nat) (ti off : Nat) (ts : Option Nat)
        (acc : List (Nat × Nat)), ti ∈ starts →
        spanCheck starts ends ti off ts acc = .ok (some (ti - off), acc)) ∧
      remapIndices tok tok [(a, p), (p, b)] = .ok [(p, b)] := by
  constructor
  · intro starts ends ti off ts acc h
    unfold spanCheck
    rw [if_pos h]
  · unfold remapIndices
    have hzip : ∀ pr ∈ (List.replicate tok.length ([] : List Char)).zip tok,
        pr.2 ∉ pr.1 := by
      intro pr hpr
      obtain ⟨pr1, pr2⟩ := pr
      have h1 := (List.of_mem_zip hpr).1
      have h2 := List.eq_of_mem_replicate h1
      rw [h2]
      exact List.not_mem_nil _
    have hmaster := remapLoop_detRemap tok
      (spanStarts [(a, p), (p, b)]) (spanEnds [(a, p), (p, b)])
      (spanStarts [(a, p), (p, b)]) (spanEnds [(a, p), (p, b)])
      tok (List.replicate tok.length []) 0 0 0 none []
      (by simp) hzip
      (by rw [List.drop_zero, interleave_replicate_nil]) rfl
      (keysAligned_identity _ _ tok.length 0)
    rw [hmaster]
    unfold detRemap
    rw [Nat.zero_add,
      show spanStarts [(a, p), (p, b)] = [a, p] from rfl,
      show spanEnds [(a, p), (p, b)] = [p, b] from rfl]
    have := detRun_collision a p b tok.length [] ha hp hb
    rw [List.nil_append] at this
    exact this

/-- Witness for C10 at a concrete collision: `tokenized = detokenized =
"abcd"`, spans `[[0,2],[2,4]]` — both non-overlapping — yield `[[2,4]]`
alone. -/
theorem c10_start_shadows_end_witness :
    (∀ (starts ends : List Nat) (ti off : Nat) (ts : Option Nat)
        (acc : List (Nat × Nat)), ti ∈ starts →
        spanCheck starts ends ti off ts acc = .ok (some (ti - off), acc)) ∧
      remapIndices "abcd".data "abcd".data [(0, 2), (2, 4)] = .ok [(2, 4)] :=
  c10_start_shadows_end "abcd".data 0 2 4 (by decide) (by decide) (by decide)

/-- C7: whenever the cursor into `tokenized` would run past its end while
skipping non-matching characters — witnessed here by a detokenized character
that occurs nowhere in `tokenized` — the call fails hard.  With any span set
it never returns a (misaligned) result, and with the empty span set the
failure is precisely the `alignmentOverrun` error, the model of the
`IndexError` of lines 44–51. -/
theorem c7_alignment_overrun (tok det : List Char) (spans : List (Nat × Nat))
    (c : Char) (hc : c ∈ det) (hnot : c ∉ tok) :
    (∀ r, remapIndices tok det spans ≠ .ok r) ∧
      remapIndices tok det [] = .error .alignmentOverrun := by
  constructor
  · intro r hr
    have := remapLoop_ok_mem (spanStarts spans) (spanEnds spans) tok det
      0 0 none [] r hr c hc
    rw [List.drop_zero] at this
    exact hnot this
  · exact remapLoop_nil_overrun tok det 0 0 none [] c hc
      (by rw [List.drop_zero]; exact hnot)

/-- Witness for C7: detokenized `"ax"` contains `'x'`, which does not occur
in tokenized `"ab"`. -/
theorem c7_alignment_overrun_witness :
    (∀ r, remapIndices "ab".data "ax".data [(0, 1)] ≠ .ok r) ∧
      remapIndices "ab".data "ax".data [] = .error .alignmentOverrun :=
  c7_alignment_overrun "ab".data "ax".data [(0, 1)] 'x' (by decide) (by decide)

end ConstrainedDecoding
